import Mathlib

/-!
Verification of the cocktail menu web application (app.py).

The Python program is shallowly embedded: dictionaries become association
lists over `String` keys, the two JSON state files become `StateMap` values
produced by an abstract file-read model, Python floats are modelled as exact
rationals, and each Flask endpoint becomes a pure function from the request
data and the current state to a response value plus the successor state.
Unicode-sensitive Python primitives (str.lower, str.title, str.isalpha)
are modelled on the ASCII fragment, which covers every string the
program's own data uses.
-/

namespace CocktailApp

/-- Association-list model of a Python dict mapping names to booleans
    (used for both `ingredients_state.json` and `cocktails_overrides.json`). -/
abbrev StateMap := List (String × Bool)

/-- Dict lookup: value of the first entry with the given key, if any. -/
def lookupKey (m : StateMap) (k : String) : Option Bool :=
  (m.find? (fun p => p.1 == k)).map Prod.snd

/-- Python dict membership plus read, `d.get(k, default)`. -/
def getKeyD (m : StateMap) (k : String) (d : Bool) : Bool :=
  (lookupKey m k).getD d

/-- Python dict write `d[k] = v`: replace in place when the key exists,
    else append at the end. -/
def setKey : StateMap → String → Bool → StateMap
  | [], k, v => [(k, v)]
  | (k', v') :: rest, k, v =>
    if k' == k then (k, v) :: rest else (k', v') :: setKey rest k v

/-- Python dict delete `del d[k]` (removes the entry with key `k`). -/
def eraseKey (m : StateMap) (k : String) : StateMap :=
  m.filter (fun p => !(p.1 == k))

/-- Localized name mapping. Mirrors the name/category dicts of the YAML
    catalog: the code treats them as dicts with an optional `en` and
    optional `fr` key (a dict without `en` yields the empty string). -/
structure LocName where
  en : Option String
  fr : Option String
deriving DecidableEq

/-- Embeds `get_ingredient_name` (app.py lines 88-104): empty string when
    the `en` key is missing, fall back to English when `fr` is requested
    but missing, else the requested locale (locales beyond `en`/`fr` fall
    back to English via `name.get(lang, name.get('en', ''))`). -/
def get_ingredient_name (n : LocName) (lang : String) : String :=
  match n.en with
  | none => ""
  | some en =>
    if lang == "fr" then
      match n.fr with
      | none => en
      | some fr => fr
    else en

/-- Embeds `get_category_name` (app.py lines 112-127); identical rules. -/
def get_category_name (c : LocName) (lang : String) : String :=
  match c.en with
  | none => ""
  | some en =>
    if lang == "fr" then
      match c.fr with
      | none => en
      | some fr => fr
    else en

/-- An ingredient entry of a cocktail: localized name and the free-form
    quantity string (numeric YAML values appear via Python `str(qty)`). -/
structure Ingredient where
  name : LocName
  qty : String
deriving DecidableEq

/-- Embeds `get_ingredient_name_en` (app.py lines 107-109). -/
def get_ingredient_name_en (i : Ingredient) : String :=
  get_ingredient_name i.name "en"

/-- A catalog entry: name, ingredient list, optional category override. -/
structure Cocktail where
  name : String
  ingredients : List Ingredient
  category : Option LocName
deriving DecidableEq

/-- Character-list test: the first list is a prefix of the second. -/
def prefOfChars : List Char → List Char → Bool
  | [], _ => true
  | _ :: _, [] => false
  | a :: as, b :: bs => a == b && prefOfChars as bs

/-- Character-list test: the first list occurs contiguously in the second. -/
def subOfChars (needle : List Char) : List Char → Bool
  | [] => prefOfChars needle []
  | b :: bs => prefOfChars needle (b :: bs) || subOfChars needle bs

/-- Python substring containment `needle in hay`. -/
def substrOf (needle hay : String) : Bool :=
  subOfChars needle.toList hay.toList

/-- Python `s.lower()` (ASCII model). -/
def lowerStr (s : String) : String :=
  String.mk (s.toList.map Char.toLower)

/-- Python `s.title()` (ASCII model): uppercase each letter that follows a
    non-letter, lowercase every other letter. -/
def titleChars : List Char → Bool → List Char
  | [], _ => []
  | c :: cs, prevAlpha =>
    if c.isAlpha then
      (if prevAlpha then c.toLower else c.toUpper) :: titleChars cs true
    else
      c :: titleChars cs false

/-- Python `s.title()` on strings. -/
def pyTitle (s : String) : String :=
  String.mk (titleChars s.toList false)

/-- Python `s.split()`: split on whitespace runs, discarding empty parts.
    The accumulator holds the current (reversed) in-progress token. -/
def splitWsAux : List Char → List Char → List String
  | [], [] => []
  | [], acc => [String.mk acc.reverse]
  | c :: cs, acc =>
    if c.isWhitespace then
      match acc with
      | [] => splitWsAux cs []
      | _ :: _ => String.mk acc.reverse :: splitWsAux cs []
    else splitWsAux cs (c :: acc)

/-- Python `s.split()` with no separator argument. -/
def pySplit (s : String) : List String :=
  splitWsAux s.toList []

/-- Numeric value of a digit list interpreted in base 10. -/
def digitsToNat (cs : List Char) : Nat :=
  cs.foldl (fun acc c => acc * 10 + (c.toNat - 48)) 0

/-- A non-empty all-digit character list, as a natural number. -/
def parseUNat? (cs : List Char) : Option Nat :=
  match cs with
  | [] => none
  | _ :: _ => if cs.all (fun c => c.isDigit) then some (digitsToNat cs) else none

/-- Python `int(token)` (base 10, optional sign), as an exact rational. -/
def parseIntQ? (s : String) : Option ℚ :=
  match s.toList with
  | '+' :: rest => (parseUNat? rest).map (fun n => (n : ℚ))
  | '-' :: rest => (parseUNat? rest).map (fun n => -(n : ℚ))
  | cs => (parseUNat? cs).map (fun n => (n : ℚ))

/-- Split a character list at the first occurrence of the given marker
    character, when present. -/
def splitAtChar (mark : Char) : List Char → List Char × Option (List Char)
  | [] => ([], none)
  | c :: cs =>
    if c == mark then ([], some cs)
    else
      let r := splitAtChar mark cs
      (c :: r.1, r.2)

/-- Split a character list at the first exponent marker `e`/`E`. -/
def splitAtExp : List Char → List Char × Option (List Char)
  | [] => ([], none)
  | c :: cs =>
    if c == 'e' || c == 'E' then ([], some cs)
    else
      let r := splitAtExp cs
      (c :: r.1, r.2)

/-- Mantissa of a Python float literal: digits with at most one dot,
    at least one digit overall, as an exact rational. -/
def parseMantissa? (cs : List Char) : Option ℚ :=
  match splitAtChar '.' cs with
  | (intPart, none) => (parseUNat? intPart).map (fun n => (n : ℚ))
  | (intPart, some fracPart) =>
    if (intPart ≠ [] || fracPart ≠ []) &&
        intPart.all (fun c => c.isDigit) && fracPart.all (fun c => c.isDigit) then
      some ((digitsToNat intPart : ℚ) + (digitsToNat fracPart : ℚ) / ((10 : ℚ) ^ fracPart.length))
    else none

/-- Exponent of a Python float literal: optional sign and digits. -/
def parseExp? (cs : List Char) : Option ℤ :=
  match cs with
  | '+' :: rest => (parseUNat? rest).map (fun n => (n : ℤ))
  | '-' :: rest => (parseUNat? rest).map (fun n => -(n : ℤ))
  | _ => (parseUNat? cs).map (fun n => (n : ℤ))

/-- Scale a mantissa by a power of ten. -/
def applyExp (m : ℚ) (e : ℤ) : ℚ :=
  if 0 ≤ e then m * (10 : ℚ) ^ e.toNat else m / (10 : ℚ) ^ (-e).toNat

/-- Unsigned part of Python `float(token)`. -/
def parseUFloat? (cs : List Char) : Option ℚ :=
  match splitAtExp cs with
  | (mant, none) => parseMantissa? mant
  | (mant, some ex) =>
    match parseMantissa? mant, parseExp? ex with
    | some m, some e => some (applyExp m e)
    | _, _ => none

/-- Python `float(token)` on decimal literals, as an exact rational
    (floats are modelled exactly; `inf`, `nan` and digit-group
    underscores are outside the model). -/
def parseFloatQ? (s : String) : Option ℚ :=
  match s.toList with
  | '+' :: rest => parseUFloat? rest
  | '-' :: rest => (parseUFloat? rest).map Neg.neg
  | cs => parseUFloat? cs

/-- Embeds the quantity heuristic of `get_main_alcohol`
    (app.py lines 187-208): unit words force 1 or 0, otherwise the first
    whitespace-separated token is parsed as a float, then as an int, with
    0 as the fallback for missing tokens and parse failures. -/
def parse_qty (qty : String) : ℚ :=
  let qty_str := lowerStr qty
  if substrOf "dash" qty_str || substrOf "drop" qty_str ||
      substrOf "teaspoon" qty_str || substrOf "bar spoon" qty_str then 1
  else if substrOf "top" qty_str || substrOf "splash" qty_str ||
      substrOf "on top" qty_str then 0
  else
    match pySplit qty with
    | [] => 0
    | t :: _ =>
      match parseFloatQ? t with
      | some v => v
      | none =>
        match parseIntQ? t with
        | some v => v
        | none => 0

/-- The fixed whitelist of alcoholic ingredients (app.py lines 156-168),
    including the source file's mojibake spelling of cachaca. -/
def alcohol_whitelist : List String :=
  ["rum", "white rum", "dark rum", "aged rum", "spiced rum",
   "gin", "old tom gin", "plymouth gin", "pink gin",
   "vodka",
   "whiskey", "whisky", "rye whiskey", "bourbon", "scotch whisky", "irish whiskey", "japanese whisky",
   "tequila", "mezcal",
   "brandy", "cognac", "armagnac",
   "cachaÃ§a", "pisco",
   "aperol", "campari", "cointreau",
   "prosecco", "champagne", "sparkling wine",
   "red port", "port", "sherry",
   "liqueur", "liqueurs"]

/-- Stable insertion step: place `x` before the first element `y` with
    `le x y`; used to model Python's stable `sorted`/`list.sort`. -/
def insertLe (le : α → α → Bool) (x : α) : List α → List α
  | [] => [x]
  | y :: ys => if le x y then x :: y :: ys else y :: insertLe le x ys

/-- Stable insertion sort, the behaviour of Python's `sorted` for a total
    preorder comparison (a stable sort's output is unique). -/
def sortLe (le : α → α → Bool) (l : List α) : List α :=
  l.foldr (insertLe le) []

/-- Python `sorted(alcohol_whitelist, key=len, reverse=True)`: longer
    entries first, ties keeping declaration order (stability). -/
def sortedWhitelist : List String :=
  sortLe (fun a b => decide (b.length ≤ a.length)) alcohol_whitelist

/-- The first (longest-first) whitelist entry occurring in the given
    lowercased ingredient name (app.py lines 177-183). -/
def firstWhitelistMatch (nameLower : String) : Option String :=
  sortedWhitelist.find? (fun a => substrOf a nameLower)

/-- The ingredient scan of `get_main_alcohol` (app.py lines 172-219):
    return the title-cased matched term of the first whitelisted
    ingredient with positive parsed quantity, else Other/Autre. -/
def scanIngredients (lang : String) : List Ingredient → String
  | [] => if lang == "fr" then "Autre" else "Other"
  | ing :: rest =>
    match firstWhitelistMatch (lowerStr (get_ingredient_name_en ing)) with
    | some matched =>
      if 0 < parse_qty ing.qty then pyTitle matched else scanIngredients lang rest
    | none => scanIngredients lang rest

/-- Embeds `get_main_alcohol` (app.py lines 146-219). The case-insensitive
    `category` key probe of the YAML dict is modelled by the optional
    `category` field. -/
def get_main_alcohol (c : Cocktail) (use_override : Bool) (lang : String) : String :=
  if use_override then
    match c.category with
    | some cat => get_category_name cat lang
    | none => scanIngredients lang c.ingredients
  else scanIngredients lang c.ingredients

/-- The early-return ingredient loop of `compute_cocktail_enabled`
    (app.py lines 255-261). -/
def allIngredientsAvailable (st : StateMap) : List Ingredient → Bool
  | [] => true
  | ing :: rest =>
    if getKeyD st (get_ingredient_name_en ing) true then
      allIngredientsAvailable st rest
    else false

/-- Embeds `compute_cocktail_enabled` (app.py lines 245-261). -/
def compute_cocktail_enabled (c : Cocktail) (ingredients_state cocktail_overrides : StateMap) : Bool :=
  match lookupKey cocktail_overrides c.name with
  | some v => v
  | none => allIngredientsAvailable ingredients_state c.ingredients

/-- Whether a cocktail lists the given ingredient (by English name),
    the comprehension filter of app.py lines 414-416. -/
def usesIngredient (name : String) (c : Cocktail) : Bool :=
  c.ingredients.any (fun ing => get_ingredient_name_en ing == name)

/-- The `all(...)` recheck of app.py lines 424-427: every ingredient of
    the cocktail available in the given state (absent defaults to true). -/
def allAvailB (st : StateMap) (c : Cocktail) : Bool :=
  c.ingredients.all (fun ing => getKeyD st (get_ingredient_name_en ing) true)

/-- The override-clearing loop of `toggle_ingredient`
    (app.py lines 419-430), threading the overrides dict. -/
def clearOverrides (st : StateMap) : List Cocktail → StateMap → StateMap
  | [], ov => ov
  | c :: cs, ov =>
    clearOverrides st cs
      (if (lookupKey ov c.name).isSome then
        (if allAvailB st c then eraseKey ov c.name else ov)
      else ov)

/-- Embeds the state mutation of `toggle_ingredient`
    (app.py lines 398-436): flip the flag (absent defaults true); when the
    ingredient becomes available, clear the overrides of now fully
    available cocktails using it. Returns the two saved state files. -/
def toggle_ingredient_core (name : String) (catalog : List Cocktail) (st ov : StateMap) :
    StateMap × StateMap :=
  let new_state := !(getKeyD st name true)
  let st2 := setKey st name new_state
  if new_state then
    (st2, clearOverrides st2 (catalog.filter (usesIngredient name)) ov)
  else (st2, ov)

/-- Response of the toggle-ingredient endpoint: HTTP 400 on missing name,
    else success with the new flag and the saved states. -/
inductive ToggleIngredientResult where
  | badRequest
  | ok (available : Bool) (st ov : StateMap)
deriving DecidableEq

/-- Embeds the `/api/toggle-ingredient` endpoint (app.py lines 388-438).
    Python's falsy test rejects both a missing and an empty name; there is
    no check that the ingredient exists in the catalog. -/
def toggle_ingredient_endpoint (nm : Option String) (catalog : List Cocktail) (st ov : StateMap) :
    ToggleIngredientResult :=
  match nm with
  | none => ToggleIngredientResult.badRequest
  | some name =>
    if name == "" then ToggleIngredientResult.badRequest
    else
      ToggleIngredientResult.ok (!(getKeyD st name true))
        (toggle_ingredient_core name catalog st ov).1
        (toggle_ingredient_core name catalog st ov).2

/-- Embeds the validated part of `toggle_cocktail` (app.py lines 450-474):
    `none` is the 404 path, otherwise the response flag and the saved
    overrides dict. -/
def toggle_cocktail_core (name : String) (catalog : List Cocktail) (st ov : StateMap) :
    Option (Bool × StateMap) :=
  if catalog.any (fun c => c.name == name) then
    match catalog.find? (fun c => c.name == name) with
    | none => none
    | some c =>
      some (!(compute_cocktail_enabled c st ov),
        setKey ov name (!(compute_cocktail_enabled c st ov)))
  else none

/-- Response of the toggle-cocktail endpoint. -/
inductive ToggleCocktailResult where
  | badRequest
  | notFound
  | ok (enabled : Bool) (ov : StateMap)
deriving DecidableEq

/-- Embeds the `/api/toggle-cocktail` endpoint (app.py lines 440-480). -/
def toggle_cocktail_endpoint (nm : Option String) (catalog : List Cocktail) (st ov : StateMap) :
    ToggleCocktailResult :=
  match nm with
  | none => ToggleCocktailResult.badRequest
  | some name =>
    if name == "" then ToggleCocktailResult.badRequest
    else
      match toggle_cocktail_core name catalog st ov with
      | none => ToggleCocktailResult.notFound
      | some r => ToggleCocktailResult.ok r.1 r.2

/-- Embeds the lookup of `/api/cocktail/<name>` (app.py lines 519-529):
    `none` is the 404 path. -/
def get_cocktail_detail (name : String) (catalog : List Cocktail) : Option Cocktail :=
  catalog.find? (fun c => c.name == name)

/-- Abstract outcome of reading a state file: missing file, an IOError
    while reading, malformed JSON, or a parsed mapping. -/
inductive FileReadResult where
  | missing
  | readFailure
  | malformed
  | parsed (m : StateMap)
deriving DecidableEq

/-- Embeds `load_ingredients_state` (app.py lines 54-62): a missing file
    skips the read, and `json.JSONDecodeError`/`IOError` are caught, all
    yielding the empty dict. -/
def load_ingredients_state : FileReadResult → StateMap
  | FileReadResult.missing => []
  | FileReadResult.readFailure => []
  | FileReadResult.malformed => []
  | FileReadResult.parsed m => m

/-- Embeds `load_cocktail_overrides` (app.py lines 71-79); same recovery. -/
def load_cocktail_overrides : FileReadResult → StateMap
  | FileReadResult.missing => []
  | FileReadResult.readFailure => []
  | FileReadResult.malformed => []
  | FileReadResult.parsed m => m

/-- A Flask route of the app together with whether it carries the
    `login_required` decorator (app.py routes at lines 287-519). -/
structure Route where
  path : String
  gated : Bool
deriving DecidableEq

/-- The app's route table; `gated` records which handlers are wrapped by
    `login_required`: only `/admin`, `/api/toggle-ingredient` and
    `/api/toggle-cocktail` are. -/
def routes : List Route :=
  [⟨"/health", false⟩, ⟨"/healthz", false⟩, ⟨"/", false⟩,
   ⟨"/login", false⟩, ⟨"/logout", false⟩, ⟨"/admin", true⟩,
   ⟨"/api/state", false⟩, ⟨"/api/toggle-ingredient", true⟩,
   ⟨"/api/toggle-cocktail", true⟩, ⟨"/api/set-language", false⟩,
   ⟨"/images/<path>", false⟩, ⟨"/api/cocktails/ordered", false⟩,
   ⟨"/api/cocktail/<name>", false⟩]

/-- Python `path.startswith('/api/')`. -/
def isApiPath (p : String) : Bool :=
  prefOfChars "/api/".toList p.toList

/-- Outcome of the authentication wrapper for one request. -/
inductive PageResponse where
  | unauthorized
  | redirectLogin
  | handled
deriving DecidableEq

/-- Embeds `login_required` dispatch (app.py lines 41-51): a gated route
    without an authenticated session yields 401 for JSON or `/api/`
    requests and a redirect otherwise; everything else runs the handler. -/
def dispatch (r : Route) (authed isJson : Bool) : PageResponse :=
  if r.gated && !authed then
    if isJson || isApiPath r.path then PageResponse.unauthorized
    else PageResponse.redirectLogin
  else PageResponse.handled

/-- A cocktail as rendered by `load_cocktails`: the catalog entry together
    with its computed `enabled` flag. -/
structure CocktailView where
  cocktail : Cocktail
  enabled : Bool
deriving DecidableEq

/-- The per-group comparison of app.py lines 234-237: Python's tuple key
    `(not enabled, name.lower())`. -/
def viewLe (a b : CocktailView) : Bool :=
  if a.enabled == b.enabled then
    decide (lowerStr a.cocktail.name ≤ lowerStr b.cocktail.name)
  else a.enabled

/-- Append a cocktail to its group, preserving Python dict insertion
    order (app.py lines 225-230). -/
def insertGroup (k : String) (c : CocktailView) :
    List (String × List CocktailView) → List (String × List CocktailView)
  | [] => [(k, [c])]
  | (k', l) :: rest =>
    if k' == k then (k', l ++ [c]) :: rest else (k', l) :: insertGroup k c rest

/-- The grouping pass of `group_cocktails_by_alcohol`. -/
def buildGroups (lang : String) (cs : List CocktailView) : List (String × List CocktailView) :=
  cs.foldl (fun gs c => insertGroup (get_main_alcohol c.cocktail true lang) c gs) []

/-- Embeds `group_cocktails_by_alcohol` (app.py lines 222-242): group by
    main alcohol, sort inside each group by `(not enabled, name.lower())`,
    then sort the groups by label. -/
def group_cocktails_by_alcohol (cs : List CocktailView) (lang : String) :
    List (String × List CocktailView) :=
  sortLe (fun a b => decide (a.1 ≤ b.1))
    ((buildGroups lang cs).map (fun g => (g.1, sortLe viewLe g.2)))

/-- Resolver as the specification states it: the override value when the
    cocktail name is a key of the overrides map, else the conjunction of
    the availability of every ingredient (absent names count available). -/
def enabled_spec (c : Cocktail) (st ov : StateMap) : Bool :=
  match lookupKey ov c.name with
  | some v => v
  | none => c.ingredients.all (fun ing => getKeyD st (get_ingredient_name_en ing) true)

/-- Quantity parser as the specification states it: 1 for dash, drop,
    teaspoon and bar-spoon units, 0 for top and splash units, otherwise
    the parsed value of the leading token with 0 on failure. -/
def parse_qty_spec (qty : String) : ℚ :=
  let qty_str := lowerStr qty
  if substrOf "dash" qty_str || substrOf "drop" qty_str ||
      substrOf "teaspoon" qty_str || substrOf "bar spoon" qty_str then 1
  else if substrOf "top" qty_str || substrOf "splash" qty_str then 0
  else
    match pySplit qty with
    | [] => 0
    | t :: _ =>
      match parseFloatQ? t with
      | some v => v
      | none =>
        match parseIntQ? t with
        | some v => v
        | none => 0

/-- Whether an ingredient matches the whitelist and has positive parsed
    quantity — the selection criterion the specification describes. -/
def qualifiesB (ing : Ingredient) : Bool :=
  (firstWhitelistMatch (lowerStr (get_ingredient_name_en ing))).isSome &&
    decide (0 < parse_qty ing.qty)

/-- Classifier as the specification states it: first qualifying
    ingredient in declaration order determines the group via the
    title-cased matched term; otherwise Other/Autre. -/
def classify_spec (c : Cocktail) (lang : String) : String :=
  match c.ingredients.find? qualifiesB with
  | some ing =>
    pyTitle ((firstWhitelistMatch (lowerStr (get_ingredient_name_en ing))).getD "")
  | none => if lang == "fr" then "Autre" else "Other"

/-- The spec's worked example, with its literal quantity strings. -/
def exampleCocktail : Cocktail :=
  ⟨"Example", [⟨⟨some "rum", none⟩, "2oz"⟩, ⟨⟨some "lime", none⟩, "1oz"⟩], none⟩

/-- The spec's worked example with space-separated quantities. -/
def exampleCocktailSpaced : Cocktail :=
  ⟨"Example", [⟨⟨some "rum", none⟩, "2 oz"⟩, ⟨⟨some "lime", none⟩, "1 oz"⟩], none⟩

/-- Availability state of the spec's worked example: rum in stock, lime
    out of stock. -/
def exampleState : StateMap := [("rum", true), ("lime", false)]

/-- String equality tests commute. -/
theorem beqStr_comm (a b : String) : (a == b) = (b == a) := by
  by_cases h : a = b
  · subst h; rfl
  · rw [beq_eq_false_iff_ne.mpr h, beq_eq_false_iff_ne.mpr (Ne.symm h)]

/-- Writing a key makes it readable with the written value. -/
theorem lookupKey_setKey_self (k : String) (v : Bool) :
    ∀ m : StateMap, lookupKey (setKey m k v) k = some v := by
  intro m
  induction m with
  | nil => simp [setKey, lookupKey, List.find?]
  | cons p rest ih =>
    obtain ⟨k', v'⟩ := p
    by_cases h : k' = k
    · subst h; simp [setKey, lookupKey, List.find?]
    · have hb : (k' == k) = false := beq_eq_false_iff_ne.mpr h
      simpa [setKey, hb, lookupKey, List.find?] using ih

/-- Writing a key leaves every other key unchanged. -/
theorem lookupKey_setKey_other (k k2 : String) (v : Bool) (hne : k2 ≠ k) :
    ∀ m : StateMap, lookupKey (setKey m k v) k2 = lookupKey m k2 := by
  intro m
  induction m with
  | nil =>
    have hb : (k == k2) = false := beq_eq_false_iff_ne.mpr (Ne.symm hne)
    simp [setKey, lookupKey, List.find?, hb]
  | cons p rest ih =>
    obtain ⟨k', v'⟩ := p
    by_cases h : k' = k
    · subst h
      have hb : (k' == k2) = false := beq_eq_false_iff_ne.mpr (Ne.symm hne)
      simp [setKey, lookupKey, List.find?, hb]
    · have hb : (k' == k) = false := beq_eq_false_iff_ne.mpr h
      by_cases h2 : k' = k2
      · subst h2; simp [setKey, hb, lookupKey, List.find?]
      · have hb2 : (k' == k2) = false := beq_eq_false_iff_ne.mpr h2
        simpa [setKey, hb, hb2, lookupKey, List.find?] using ih

/-- A prefix occurrence is in particular a contiguous occurrence. -/
theorem subOfChars_of_prefOfChars (n l : List Char) (h : prefOfChars n l = true) :
    subOfChars n l = true := by
  cases l with
  | nil => simpa [subOfChars] using h
  | cons b bs => simp [subOfChars, h]

/-- Dropping a prefix of the needle preserves occurrence at the front. -/
theorem subOfChars_of_prefOfChars_append (xs : List Char) :
    ∀ (ys l : List Char), prefOfChars (xs ++ ys) l = true → subOfChars ys l = true := by
  induction xs with
  | nil => intro ys l h; exact subOfChars_of_prefOfChars ys l (by simpa using h)
  | cons a as ih =>
    intro ys l h
    cases l with
    | nil => simp [prefOfChars] at h
    | cons b bs =>
      rw [List.cons_append, prefOfChars, Bool.and_eq_true] at h
      have hs := ih ys bs h.2
      simp [subOfChars, hs]

/-- If a concatenation occurs contiguously, so does its second part. -/
theorem subOfChars_append_right : ∀ (l xs ys : List Char),
    subOfChars (xs ++ ys) l = true → subOfChars ys l = true := by
  intro l
  induction l with
  | nil =>
    intro xs ys h
    cases xs with
    | nil => simpa using h
    | cons a as => simp [subOfChars, prefOfChars] at h
  | cons b bs ih =>
    intro xs ys h
    rw [subOfChars, Bool.or_eq_true] at h
    rcases h with h | h
    · exact subOfChars_of_prefOfChars_append xs ys (b :: bs) h
    · have hs := ih xs ys h
      simp [subOfChars, hs]

/-- A string containing "on top" also contains "top". -/
theorem substrOf_top_of_ontop (s : String) (h : substrOf "on top" s = true) :
    substrOf "top" s = true := by
  have e : ("on top".toList) = ("on ".toList ++ "top".toList) := by decide
  unfold substrOf at h ⊢
  rw [e] at h
  exact subOfChars_append_right s.toList "on ".toList "top".toList h

/-- The early-return loop of the resolver agrees with the conjunction
    over all ingredients. -/
theorem allIngredientsAvailable_eq_all (st : StateMap) :
    ∀ ings : List Ingredient,
      allIngredientsAvailable st ings =
        ings.all (fun ing => getKeyD st (get_ingredient_name_en ing) true) := by
  intro ings
  induction ings with
  | nil => rfl
  | cons i rest ih =>
    by_cases h : getKeyD st (get_ingredient_name_en i) true = true
    · simp [allIngredientsAvailable, h, ih]
    · have hb : getKeyD st (get_ingredient_name_en i) true = false := by simpa using h
      simp [allIngredientsAvailable, hb]

/-- C1: for every cocktail, availability map and overrides map, the
    resolver `compute_cocktail_enabled` returns the override value when
    the cocktail's name is a key of the overrides map, and otherwise
    returns true if and only if every ingredient's English name maps to
    true in the availability map, a name absent from the availability map
    counting as true (the spec-side formulation `enabled_spec`). -/
theorem c1_resolver_override_then_availability (c : Cocktail) (st ov : StateMap) :
    compute_cocktail_enabled c st ov = enabled_spec c st ov := by
  unfold compute_cocktail_enabled enabled_spec
  cases h : lookupKey ov c.name with
  | some v => rfl
  | none => simpa using allIngredientsAvailable_eq_all st c.ingredients

/-- C5: the classifier's quantity parser yields 1 when the lowercased
    string contains "dash", "drop", "teaspoon" or "bar spoon"; 0 when it
    instead contains "top" or "splash"; otherwise the numeric value of
    the leading whitespace-separated token parsed as a float or int, and
    0 when that parse fails (the spec-side formulation
    `parse_qty_spec`; the code's extra redundant "on top" test is
    subsumed by the "top" test). -/
theorem c5_quantity_parsing (qty : String) : parse_qty qty = parse_qty_spec qty := by
  unfold parse_qty parse_qty_spec
  by_cases h1 : (substrOf "dash" (lowerStr qty) || substrOf "drop" (lowerStr qty) ||
      substrOf "teaspoon" (lowerStr qty) || substrOf "bar spoon" (lowerStr qty)) = true
  · simp [h1]
  · cases hot : substrOf "on top" (lowerStr qty) with
    | false => simp [hot]
    | true =>
      have ht := substrOf_top_of_ontop (lowerStr qty) hot
      simp [hot, ht]

/-- The classifier's ingredient loop returns the title-cased matched term
    of the first ingredient qualifying per `qualifiesB`, else the
    localized Other label. -/
theorem scanIngredients_eq_find (lang : String) :
    ∀ ings : List Ingredient,
      scanIngredients lang ings =
        (match ings.find? qualifiesB with
         | some ing =>
             pyTitle ((firstWhitelistMatch (lowerStr (get_ingredient_name_en ing))).getD "")
         | none => if lang == "fr" then "Autre" else "Other") := by
  intro ings
  induction ings with
  | nil => rfl
  | cons ing rest ih =>
    cases hm : firstWhitelistMatch (lowerStr (get_ingredient_name_en ing)) with
    | none =>
      have hq : qualifiesB ing = false := by simp [qualifiesB, hm]
      rw [scanIngredients, hm, List.find?_cons_of_neg _ (by simp [hq]), ih]
    | some m =>
      by_cases hqty : 0 < parse_qty ing.qty
      · have hq : qualifiesB ing = true := by simp [qualifiesB, hm, hqty]
        rw [scanIngredients, hm, List.find?_cons_of_pos _ hq]
        simp [hm, hqty]
      · have hq : qualifiesB ing = false := by simp [qualifiesB, hm, hqty]
        rw [scanIngredients, hm, List.find?_cons_of_neg _ (by simp [hq]), ih]
        simp [hqty]

/-- C4: the classifier `get_main_alcohol` returns the localized name of a
    declared category when one exists; otherwise it scans ingredients in
    declaration order, matching English names against the whitelist with
    longer entries tried first, and returns the title-cased matched term
    of the first ingredient that matches and has positive parsed
    quantity, falling back to "Other"/"Autre" (the spec-side formulation
    `classify_spec`). -/
theorem c4_classifier (c : Cocktail) (lang : String) :
    get_main_alcohol c true lang =
      (match c.category with
       | some cat => get_category_name cat lang
       | none => classify_spec c lang) := by
  cases hc : c.category with
  | some cat => simp [get_main_alcohol, hc]
  | none => simp [get_main_alcohol, hc, classify_spec, scanIngredients_eq_find]

/-- Filtering out an absent key (possibly guarded by a flag) is the
    identity. -/
theorem filter_keyne_of_lookup_none (ov : StateMap) (k : String) (b : Bool)
    (h : lookupKey ov k = none) :
    ov.filter (fun p => !(p.1 == k && b)) = ov := by
  have hf : ov.find? (fun p => p.1 == k) = none := Option.map_eq_none'.mp h
  have hall := List.find?_eq_none.mp hf
  apply List.filter_eq_self.mpr
  intro p hp
  have : (p.1 == k) = false := by
    have := hall p hp
    simpa using this
  simp [this]

/-- One pass of the override-clearing loop acts as a filter on the
    overrides dict. -/
theorem clearStep_eq_filter (ov : StateMap) (k : String) (a : Bool) :
    (if (lookupKey ov k).isSome then (if a then eraseKey ov k else ov) else ov) =
      ov.filter (fun p => !(p.1 == k && a)) := by
  cases a with
  | false =>
    have : ov.filter (fun p => !(p.1 == k && false)) = ov := by
      apply List.filter_eq_self.mpr; intro p _; simp
    rw [this]
    cases h : (lookupKey ov k).isSome <;> simp
  | true =>
    cases h : lookupKey ov k with
    | none =>
      simpa using (filter_keyne_of_lookup_none ov k true h).symm
    | some v =>
      simp only [Option.isSome_some, if_true]
      unfold eraseKey
      apply List.filter_congr
      intro p _
      simp

/-- The override-clearing loop removes exactly the overrides of listed
    cocktails whose ingredients are all available. -/
theorem clearOverrides_eq_filter (st : StateMap) :
    ∀ (cs : List Cocktail) (ov : StateMap),
      clearOverrides st cs ov =
        ov.filter (fun p => !(cs.any (fun c => c.name == p.1 && allAvailB st c))) := by
  intro cs
  induction cs with
  | nil =>
    intro ov
    unfold clearOverrides
    symm
    apply List.filter_eq_self.mpr
    intro p _
    simp
  | cons c cs ih =>
    intro ov
    rw [clearOverrides, ih, clearStep_eq_filter ov c.name (allAvailB st c),
      List.filter_filter]
    apply List.filter_congr
    intro p _
    rw [List.any_cons, Bool.not_or, beqStr_comm c.name p.1, Bool.and_comm]

/-- C2: toggling an ingredient stores the negation of its current
    effective availability (absent defaults to true) and changes no other
    availability key; when the new value is false the overrides map is
    untouched, and when it is true exactly those override entries whose
    cocktail contains the ingredient and whose ingredients are all
    available in the updated state are removed, every other entry kept in
    place. -/
theorem c2_toggle_ingredient_effects (name : String) (catalog : List Cocktail)
    (st ov : StateMap) :
    lookupKey (toggle_ingredient_core name catalog st ov).1 name =
      some (!(getKeyD st name true)) ∧
    (∀ k, k ≠ name →
      lookupKey (toggle_ingredient_core name catalog st ov).1 k = lookupKey st k) ∧
    ((!(getKeyD st name true)) = false →
      (toggle_ingredient_core name catalog st ov).2 = ov) ∧
    ((!(getKeyD st name true)) = true →
      (toggle_ingredient_core name catalog st ov).2 =
        ov.filter (fun p => !(catalog.any (fun c =>
          usesIngredient name c &&
            (c.name == p.1 && allAvailB (setKey st name true) c))))) := by
  refine ⟨?_, ?_, ?_, ?_⟩
  · cases hn : !(getKeyD st name true) <;>
      simp [toggle_ingredient_core, hn, lookupKey_setKey_self]
  · intro k hk
    cases hn : !(getKeyD st name true) <;>
      simp [toggle_ingredient_core, hn, lookupKey_setKey_other name k _ hk]
  · intro hn
    simp [toggle_ingredient_core, hn]
  · intro hn
    simp only [toggle_ingredient_core, hn, if_true]
    rw [clearOverrides_eq_filter]
    simp [List.any_filter]

/-- Name lookup in a catalog whose names are distinct finds the member
    cocktail itself. -/
theorem find?_name_of_nodup :
    ∀ (catalog : List Cocktail) (c : Cocktail), c ∈ catalog →
      (catalog.map (fun x => x.name)).Nodup →
      catalog.find? (fun x => x.name == c.name) = some c := by
  intro catalog
  induction catalog with
  | nil => intro c hc _; simp at hc
  | cons d ds ih =>
    intro c hc hnd
    rw [List.map_cons, List.nodup_cons] at hnd
    by_cases hd : d.name = c.name
    · have hdc : d = c := by
        rcases List.mem_cons.mp hc with h | h
        · exact h.symm
        · exfalso
          exact hnd.1 (hd ▸ List.mem_map_of_mem (fun x => x.name) h)
      subst hdc
      exact List.find?_cons_of_pos _ (by simp)
    · have hb : (d.name == c.name) = false := beq_eq_false_iff_ne.mpr hd
      have hcd : c ∈ ds := by
        rcases List.mem_cons.mp hc with h | h
        · exact absurd (h ▸ rfl : d.name = c.name) hd
        · exact h
      rw [List.find?_cons_of_neg _ (by simp [hb])]
      exact ih c hcd hnd.2

/-- C3: for a cocktail present in the catalog (names being unique keys),
    toggling the cocktail override writes the negation of its current
    effective enabled state into the overrides map, and the effective
    enabled state computed afterwards is that negation. -/
theorem c3_toggle_cocktail_negates (c : Cocktail) (catalog : List Cocktail)
    (st ov : StateMap) (hmem : c ∈ catalog)
    (hnodup : (catalog.map (fun x => x.name)).Nodup) :
    toggle_cocktail_core c.name catalog st ov =
      some (!(compute_cocktail_enabled c st ov),
        setKey ov c.name (!(compute_cocktail_enabled c st ov))) ∧
    lookupKey (setKey ov c.name (!(compute_cocktail_enabled c st ov))) c.name =
      some (!(compute_cocktail_enabled c st ov)) ∧
    compute_cocktail_enabled c st
        (setKey ov c.name (!(compute_cocktail_enabled c st ov))) =
      !(compute_cocktail_enabled c st ov) := by
  have hfind := find?_name_of_nodup catalog c hmem hnodup
  have hany : catalog.any (fun x => x.name == c.name) = true :=
    List.any_eq_true.mpr ⟨c, hmem, by simp⟩
  refine ⟨?_, ?_, ?_⟩
  · simp [toggle_cocktail_core, hany, hfind]
  · exact lookupKey_setKey_self c.name _ ov
  · unfold compute_cocktail_enabled
    rw [lookupKey_setKey_self c.name _ ov]

/-- C2 witness: toggling "lime" (stored false) to available in a
    one-cocktail catalog removes the now fully available cocktail's
    override. -/
theorem c2_toggle_ingredient_effects_witness :
    (toggle_ingredient_core "lime" [exampleCocktailSpaced] [("lime", false)]
        [("Example", true)]).2 = [] := by
  have h := (c2_toggle_ingredient_effects "lime" [exampleCocktailSpaced]
    [("lime", false)] [("Example", true)]).2.2.2 (by decide)
  rw [h]
  decide

/-- C3 witness: toggling the example cocktail (disabled since lime is
    out) writes override true. -/
theorem c3_toggle_cocktail_negates_witness :
    toggle_cocktail_core exampleCocktailSpaced.name [exampleCocktailSpaced]
        exampleState [] = some (true, [("Example", true)]) := by
  rw [(c3_toggle_cocktail_negates exampleCocktailSpaced [exampleCocktailSpaced]
    exampleState [] (by decide) (by decide)).1]
  decide

/-- C6 counterexample: on the spec's example cocktail with its literal
    quantity "2oz" (no space), the leading token "2oz" parses as neither
    float nor int, so the rum ingredient's parsed quantity is 0 and the
    classifier returns "Other", not "Rum"; the resolver does return
    false. -/
theorem c6_example_counterexample :
    compute_cocktail_enabled exampleCocktail exampleState [] = false ∧
    parse_qty "2oz" = 0 ∧
    get_main_alcohol exampleCocktail true "en" = "Other" ∧
    get_main_alcohol exampleCocktail true "en" ≠ "Rum" := by
  refine ⟨by decide, by decide, by decide, by decide⟩

/-- C6 amended: with space-separated quantities "2 oz" and "1 oz", rum
    available and lime unavailable and no override, the resolver returns
    false and the classifier returns "Rum". -/
theorem c6_example_amended :
    compute_cocktail_enabled exampleCocktailSpaced exampleState [] = false ∧
    get_main_alcohol exampleCocktailSpaced true "en" = "Rum" := by
  refine ⟨by decide, by decide⟩

/-- C7 counterexample: the toggle-ingredient endpoint accepts the unknown
    ingredient name "ghost" against an empty catalog: it does not answer
    400, it reports success, and it creates a state entry for the unknown
    name. -/
theorem c7_unknown_ingredient_counterexample :
    toggle_ingredient_endpoint (some "ghost") [] [] [] ≠
      ToggleIngredientResult.badRequest ∧
    toggle_ingredient_endpoint (some "ghost") [] [] [] =
      ToggleIngredientResult.ok false [("ghost", false)] [] ∧
    lookupKey [("ghost", false)] "ghost" = some false := by
  refine ⟨by decide, by decide, by decide⟩

/-- C7 amended: the toggle-cocktail and cocktail-detail endpoints answer
    404 for an unknown cocktail name, and both toggle endpoints answer
    400 for a missing name; but the toggle-ingredient endpoint performs
    no catalog validation: any non-empty name, known or not, is accepted
    and a state entry is written for it. -/
theorem c7_unknown_name_handling (name : String) (catalog : List Cocktail)
    (st ov : StateMap) :
    (name ≠ "" → catalog.find? (fun c => c.name == name) = none →
      toggle_cocktail_endpoint (some name) catalog st ov =
        ToggleCocktailResult.notFound) ∧
    (catalog.find? (fun c => c.name == name) = none →
      get_cocktail_detail name catalog = none) ∧
    toggle_cocktail_endpoint none catalog st ov = ToggleCocktailResult.badRequest ∧
    toggle_ingredient_endpoint none catalog st ov = ToggleIngredientResult.badRequest ∧
    (name ≠ "" →
      toggle_ingredient_endpoint (some name) catalog st ov =
        ToggleIngredientResult.ok (!(getKeyD st name true))
          (toggle_ingredient_core name catalog st ov).1
          (toggle_ingredient_core name catalog st ov).2 ∧
      lookupKey (toggle_ingredient_core name catalog st ov).1 name =
        some (!(getKeyD st name true))) := by
  refine ⟨?_, ?_, rfl, rfl, ?_⟩
  · intro h hf
    have hb : (name == "") = false := beq_eq_false_iff_ne.mpr h
    have hany : catalog.any (fun c => c.name == name) = false := by
      rw [List.any_eq_false]
      intro c hc
      exact List.find?_eq_none.mp hf c hc
    simp [toggle_cocktail_endpoint, hb, toggle_cocktail_core, hany]
  · intro hf
    exact hf
  · intro h
    have hb : (name == "") = false := beq_eq_false_iff_ne.mpr h
    refine ⟨by simp [toggle_ingredient_endpoint, hb], ?_⟩
    cases hn : !(getKeyD st name true) <;>
      simp [toggle_ingredient_core, hn, lookupKey_setKey_self]

/-- C7 witness: the unknown cocktail "ghost" gets 404 from the
    toggle-cocktail endpoint. -/
theorem c7_unknown_name_handling_witness :
    toggle_cocktail_endpoint (some "ghost") [] [] [] = ToggleCocktailResult.notFound :=
  (c7_unknown_name_handling "ghost" [] [] []).1 (by decide) (by decide)

/-- C8 counterexample: the route "/api/state" carries no login_required
    decorator, so an unauthenticated request to it is handled normally
    instead of answering 401. -/
theorem c8_api_state_counterexample :
    (⟨"/api/state", false⟩ : Route) ∈ routes ∧
    dispatch ⟨"/api/state", false⟩ false false = PageResponse.handled ∧
    dispatch ⟨"/api/state", false⟩ false false ≠ PageResponse.unauthorized := by
  refine ⟨by decide, by decide, by decide⟩

/-- C8 amended: only /admin, /api/toggle-ingredient and
    /api/toggle-cocktail are auth-gated; an unauthenticated request to a
    gated route answers 401 when the request is JSON or the path is under
    /api/, and redirects to login otherwise; every ungated route,
    including the /api/ read endpoints, is handled without
    authentication. -/
theorem c8_auth_gating (j : Bool) :
    (∀ r ∈ routes, r.gated = true →
      dispatch r false j =
        (if j || isApiPath r.path then PageResponse.unauthorized
         else PageResponse.redirectLogin)) ∧
    (∀ r ∈ routes, r.gated = false → dispatch r false j = PageResponse.handled) ∧
    (routes.filter (fun r => r.gated)).map (fun r => r.path) =
      ["/admin", "/api/toggle-ingredient", "/api/toggle-cocktail"] ∧
    (∀ r ∈ routes, dispatch r true j = PageResponse.handled) := by
  cases j <;> exact ⟨by decide, by decide, by decide, by decide⟩

/-- C8 witness: an unauthenticated JSON request to /admin answers 401. -/
theorem c8_auth_gating_witness :
    dispatch ⟨"/admin", true⟩ false true = PageResponse.unauthorized := by
  have h := (c8_auth_gating true).1 ⟨"/admin", true⟩ (by decide) rfl
  simpa using h

/-- C9: whether the state file is absent, unreadable or holds malformed
    JSON, loading the ingredient availability state and the cocktail
    overrides yields the empty mapping, and resolution then behaves as
    with no recorded state. -/
theorem c9_failed_loads_empty (fr fo : FileReadResult)
    (hfr : fr = FileReadResult.missing ∨ fr = FileReadResult.readFailure ∨
      fr = FileReadResult.malformed)
    (hfo : fo = FileReadResult.missing ∨ fo = FileReadResult.readFailure ∨
      fo = FileReadResult.malformed) :
    load_ingredients_state fr = [] ∧ load_cocktail_overrides fo = [] ∧
    ∀ c : Cocktail,
      compute_cocktail_enabled c (load_ingredients_state fr)
          (load_cocktail_overrides fo) =
        compute_cocktail_enabled c [] [] := by
  have h1 : load_ingredients_state fr = [] := by
    rcases hfr with h | h | h <;> simp [h, load_ingredients_state]
  have h2 : load_cocktail_overrides fo = [] := by
    rcases hfo with h | h | h <;> simp [h, load_cocktail_overrides]
  exact ⟨h1, h2, fun c => by rw [h1, h2]⟩

/-- C9 witness: a missing availability file and a malformed overrides
    file both load as the empty mapping. -/
theorem c9_failed_loads_empty_witness :
    load_ingredients_state FileReadResult.missing = [] ∧
    load_cocktail_overrides FileReadResult.malformed = [] := by
  have h := c9_failed_loads_empty FileReadResult.missing FileReadResult.malformed
    (Or.inl rfl) (Or.inr (Or.inr rfl))
  exact ⟨h.1, h.2.1⟩

/-- Membership through stable insertion. -/
theorem mem_insertLe {α : Type} (le : α → α → Bool) (x : α) :
    ∀ (l : List α) (a : α), a ∈ insertLe le x l ↔ a = x ∨ a ∈ l := by
  intro l
  induction l with
  | nil => intro a; simp [insertLe]
  | cons y ys ih =>
    intro a
    by_cases h : le x y = true
    · simp [insertLe, h, List.mem_cons]
    · simp only [insertLe, if_neg h, List.mem_cons, ih]
      tauto

/-- Stable insertion preserves sortedness for a total transitive
    comparison. -/
theorem pairwise_insertLe {α : Type} (le : α → α → Bool)
    (total : ∀ a b, (le a b || le b a) = true)
    (htrans : ∀ a b c, le a b = true → le b c = true → le a c = true)
    (x : α) :
    ∀ l : List α, l.Pairwise (fun a b => le a b = true) →
      (insertLe le x l).Pairwise (fun a b => le a b = true) := by
  intro l
  induction l with
  | nil => intro _; simp [insertLe]
  | cons y ys ih =>
    intro h
    rw [List.pairwise_cons] at h
    obtain ⟨hy, hys⟩ := h
    by_cases hxy : le x y = true
    · rw [insertLe, if_pos hxy, List.pairwise_cons]
      refine ⟨?_, ?_⟩
      · intro z hz
        rcases List.mem_cons.mp hz with rfl | hz'
        · exact hxy
        · exact htrans x y z hxy (hy z hz')
      · rw [List.pairwise_cons]; exact ⟨hy, hys⟩
    · have hf : le x y = false := by simpa using hxy
      have hyx : le y x = true := by
        have ht := total x y
        rw [hf] at ht
        simpa using ht
      rw [insertLe, if_neg hxy, List.pairwise_cons]
      refine ⟨?_, ih hys⟩
      intro z hz
      rcases (mem_insertLe le x ys z).mp hz with rfl | hz'
      · exact hyx
      · exact hy z hz'

/-- An insertion sort output is sorted for a total transitive
    comparison. -/
theorem pairwise_sortLe {α : Type} (le : α → α → Bool)
    (total : ∀ a b, (le a b || le b a) = true)
    (htrans : ∀ a b c, le a b = true → le b c = true → le a c = true) :
    ∀ l : List α, (sortLe le l).Pairwise (fun a b => le a b = true) := by
  intro l
  induction l with
  | nil => simp [sortLe]
  | cons a l ih => exact pairwise_insertLe le total htrans a (sortLe le l) ih

/-- Sorting preserves membership. -/
theorem mem_sortLe {α : Type} (le : α → α → Bool) :
    ∀ (l : List α) (a : α), a ∈ sortLe le l ↔ a ∈ l := by
  intro l
  induction l with
  | nil => intro a; simp [sortLe]
  | cons b bs ih =>
    intro a
    have hs : sortLe le (b :: bs) = insertLe le b (sortLe le bs) := rfl
    rw [hs, mem_insertLe le b (sortLe le bs) a, ih a, List.mem_cons]

/-- The label comparison used on alcohol groups is total. -/
theorem groupLe_total (a b : String × List CocktailView) :
    (decide (a.1 ≤ b.1) || decide (b.1 ≤ a.1)) = true := by
  rcases le_total a.1 b.1 with h | h <;> simp [h]

/-- The label comparison used on alcohol groups is transitive. -/
theorem groupLe_trans (a b c : String × List CocktailView) :
    decide (a.1 ≤ b.1) = true → decide (b.1 ≤ c.1) = true →
      decide (a.1 ≤ c.1) = true := by
  intro h1 h2
  simp only [decide_eq_true_eq] at h1 h2 ⊢
  exact le_trans h1 h2

/-- The in-group comparison `(not enabled, lowercased name)` is total. -/
theorem viewLe_total (a b : CocktailView) : (viewLe a b || viewLe b a) = true := by
  cases ha : a.enabled <;> cases hb : b.enabled <;>
    simp [viewLe, ha, hb] <;>
    exact le_total _ _

/-- The in-group comparison `(not enabled, lowercased name)` is
    transitive. -/
theorem viewLe_trans (a b c : CocktailView) :
    viewLe a b = true → viewLe b c = true → viewLe a c = true := by
  cases ha : a.enabled <;> cases hb : b.enabled <;> cases hc : c.enabled <;>
    simp [viewLe, ha, hb, hc] <;>
    exact le_trans

/-- What in-group sortedness means: enabled entries precede disabled
    ones, and entries with equal status are in lowercased-name order. -/
theorem viewLe_imp (a b : CocktailView) (h : viewLe a b = true) :
    (b.enabled = true → a.enabled = true) ∧
    (a.enabled = b.enabled → lowerStr a.cocktail.name ≤ lowerStr b.cocktail.name) := by
  cases ha : a.enabled <;> cases hb : b.enabled <;>
    rw [viewLe, ha, hb] at h <;> simp_all

/-- C10: the grouped output lists group labels in ascending
    (alphabetical) order, and inside every group the enabled cocktails
    precede the disabled ones, entries of equal status being in ascending
    order of lowercased cocktail name. -/
theorem c10_group_ordering (cs : List CocktailView) (lang : String) :
    ((group_cocktails_by_alcohol cs lang).map Prod.fst).Pairwise (fun a b => a ≤ b) ∧
    ∀ g ∈ group_cocktails_by_alcohol cs lang,
      g.2.Pairwise (fun a b =>
        (b.enabled = true → a.enabled = true) ∧
        (a.enabled = b.enabled →
          lowerStr a.cocktail.name ≤ lowerStr b.cocktail.name)) := by
  constructor
  · have hp := pairwise_sortLe (fun a b : String × List CocktailView => decide (a.1 ≤ b.1))
      groupLe_total groupLe_trans
      ((buildGroups lang cs).map (fun g => (g.1, sortLe viewLe g.2)))
    rw [List.pairwise_map]
    exact hp.imp (fun h => of_decide_eq_true h)
  · intro g hg
    have hg' : g ∈ (buildGroups lang cs).map (fun g => (g.1, sortLe viewLe g.2)) :=
      (mem_sortLe _ _ g).mp hg
    obtain ⟨g0, hg0, rfl⟩ := List.mem_map.mp hg'
    have hp := pairwise_sortLe viewLe viewLe_total viewLe_trans g0.2
    exact hp.imp (fun h => viewLe_imp _ _ h)

/-- C10 witness: in the grouped output for a one-cocktail list, the
    single "Rum" group is internally ordered. -/
theorem c10_group_ordering_witness :
    List.Pairwise (fun a b : CocktailView =>
        (b.enabled = true → a.enabled = true) ∧
        (a.enabled = b.enabled →
          lowerStr a.cocktail.name ≤ lowerStr b.cocktail.name))
      [⟨exampleCocktailSpaced, true⟩] :=
  (c10_group_ordering [⟨exampleCocktailSpaced, true⟩] "en").2
    ("Rum", [⟨exampleCocktailSpaced, true⟩]) (by decide)

end CocktailApp
